import Mathlib

/-!
Verification of the Metropolis–Hastings substitution-cipher cracker
(`metropolis-hastings.py`).

The Python source is shallowly embedded as follows.

* Texts, alphabets and ciphers are `List Char`.
* Python floats are modelled as real numbers (`ℝ`); `math.log` is
  `Real.log`, `math.exp` is `Real.exp`.
* The transition model `M` (a nested dict) is a curried partial map
  `Char → Char → Option ℝ`; a `none` models a `KeyError` on either
  level of the dict lookup, which the source catches and skips.
* Randomness is reified as explicit arguments: `random.sample(alphabet,
  len(alphabet))` becomes a list of index picks consumed by sequential
  draws without replacement; `random.sample(range(n), 2)` becomes the
  two chosen indices (which that call guarantees are distinct and in
  range); `random.uniform(0.0, 1.0)` becomes a real argument.
* A Python function that can raise an uncaught exception is embedded
  with `Option`/`Except`: `encipher` raises `IndexError` when the
  `cipher` argument is shorter than the `alphabet` argument (the
  `except KeyError` in the source does not catch `IndexError`), and
  `swapCipher` raises `ValueError` from `random.sample` when the cipher
  has fewer than two entries.
-/

namespace MH

/-- A transition model: nested dictionary from symbol pairs to
probabilities, with `none` for absent keys. -/
abbrev TM := Char → Char → Option ℝ

/-- One dictionary assignment `m[p.1] = p.2`: later assignments override
earlier ones, as in the Python dict building loop of `encipher`. -/
def updEntry (m : Char → Option Char) (p : Char × Char) : Char → Option Char :=
  fun c => if c = p.1 then some p.2 else m c

/-- The `cipherMap` dict of `encipher`: for each index `i` of `alphabet`,
`cipherMap[alphabet[i]] = cipher[i]`, built left to right. -/
def cipherMapFun (cipher alphabet : List Char) : Char → Option Char :=
  (alphabet.zip cipher).foldl updEntry (fun _ => none)

/-- The message-rewriting loop of `encipher`: each character found in the
map is replaced, a `KeyError` (absent key) leaves it unchanged. -/
def encipherLoop (f : Char → Option Char) : List Char → List Char
  | [] => []
  | c :: rest =>
      (match f c with
       | some c2 => c2
       | none => c) :: encipherLoop f rest

/-- `encipher(message, cipher, alphabet)` from the source.  The dict
building loop indexes `cipher[i]` for every position `i` of `alphabet`,
so it raises an uncaught `IndexError` (modelled by `none`) exactly when
`cipher` is shorter than `alphabet`. -/
def encipher (message cipher alphabet : List Char) : Option (List Char) :=
  if cipher.length < alphabet.length then none
  else some (encipherLoop (cipherMapFun cipher alphabet) message)

/-- Sequential sampling without replacement: each pick chooses an index
into the remaining pool (reduced modulo the pool size), removes that
element and continues.  This is the embedding of `random.sample(pool, k)`
with the randomness reified as the list of picks. -/
def sampleAll (pool : List Char) (picks : List Nat) : List Char :=
  match picks with
  | [] => []
  | k :: ks =>
      if h : 0 < pool.length then
        pool.get ⟨k % pool.length, Nat.mod_lt k h⟩ ::
          sampleAll (pool.eraseIdx (k % pool.length)) ks
      else []

/-- `permuteAlph(alphabet)` from the source: `random.sample(alphabet,
len(alphabet))`, with the random draws reified as `picks` (one pick per
element of the alphabet). -/
def permuteAlph (alphabet : List Char) (picks : List Nat) : List Char :=
  sampleAll alphabet picks

/-- The error raised by `swapCipher` on a degenerate alphabet:
`random.sample(range(n), 2)` raises for `n < 2`.  The spec names this
condition `InvalidAlphabetSize`. -/
inductive CipherError where
  | invalidAlphabetSize
deriving DecidableEq

/-- The simultaneous swap `cipherList[i], cipherList[j] =
cipherList[j], cipherList[i]` of the source. -/
def swapList (l : List Char) (i j : Nat) : List Char :=
  (l.set i (l.getD j ' ')).set j (l.getD i ' ')

/-- `swapCipher(cipher)` from the source, with the two indices drawn by
`random.sample(range(len(cipher)), 2)` reified as `i` and `j` (that call
guarantees `i ≠ j`, both in range, whenever it succeeds); it raises
(`ValueError`) exactly when the cipher has fewer than two entries. -/
def swapCipher (cipher : List Char) (i j : Nat) : Except CipherError (List Char) :=
  if cipher.length < 2 then Except.error CipherError.invalidAlphabetSize
  else Except.ok (swapList cipher i j)

/-- The log-probability accumulation loop shared by `measure` and
`acceptProb`: over each adjacent pair of the text, add
`math.log(M[u[i]][u[i+1]])`, skipping pairs whose lookup raises
`KeyError`. -/
noncomputable def logProbFold (M : TM) : List Char → ℝ
  | [] => 0
  | [_] => 0
  | a :: b :: rest =>
      (match M a b with
       | some v => Real.log v
       | none => 0) + logProbFold M (b :: rest)

/-- `measure(cipher, encipheredMessage, M, alphabet)` from the source:
decode with `encipher(encipheredMessage, alphabet, cipher)` and
accumulate log transition probabilities. -/
noncomputable def measure (cipher encMsg : List Char) (M : TM) (alphabet : List Char) :
    Option ℝ :=
  (encipher encMsg alphabet cipher).map (fun u => logProbFold M u)

/-- `acceptProb(X, Y, encipheredMessage, M, alphabet)` from the source:
unscramble with both reverse ciphers, take the difference of the two
log-probability sums, return `1.0` when it is positive and `exp(diff)`
otherwise. -/
noncomputable def acceptProb (X Y encMsg : List Char) (M : TM) (alphabet : List Char) :
    Option ℝ :=
  match encipher encMsg alphabet X, encipher encMsg alphabet Y with
  | some uX, some uY =>
      some (if 0 < logProbFold M uY - logProbFold M uX then (1 : ℝ)
            else Real.exp (logProbFold M uY - logProbFold M uX))
  | _, _ => none

/-- Search state of `metropolisHastings`: the current reverse cipher and
the best reverse cipher found so far. -/
structure MHState where
  curr : List Char
  best : List Char

/-- The randomness consumed by one loop iteration: the two swap indices
from `random.sample(range(n), 2)` and the uniform draw of
`random.uniform(0.0, 1.0)`. -/
structure StepRand where
  i : Nat
  j : Nat
  u : ℝ

/-- One iteration of the `metropolisHastings` loop body: propose a
neighbour by a swap, compute the acceptance probability, accept when it
exceeds the uniform draw, and update the best cipher when the new
current cipher scores strictly higher. -/
noncomputable def mhStep (alphabet encMsg : List Char) (M : TM) (st : MHState)
    (r : StepRand) : Option MHState :=
  match swapCipher st.curr r.i r.j with
  | Except.error _ => none
  | Except.ok nextCipher =>
      match acceptProb st.curr nextCipher encMsg M alphabet with
      | none => none
      | some a =>
          if r.u < a then
            match measure nextCipher encMsg M alphabet,
                  measure st.best encMsg M alphabet with
            | some mc, some mb =>
                if mb < mc then some ⟨nextCipher, nextCipher⟩
                else some ⟨nextCipher, st.best⟩
            | _, _ => none
          else some st

/-- The iteration of the search loop over a list of per-step random
draws (the list length is the iteration budget `max_iter`). -/
noncomputable def mhRun (alphabet encMsg : List Char) (M : TM) (st : MHState) :
    List StepRand → Option MHState
  | [] => some st
  | r :: rest =>
      match mhStep alphabet encMsg M st r with
      | none => none
      | some st2 => mhRun alphabet encMsg M st2 rest

/-- `metropolisHastings(alphabet, encipheredMessage, M, max_iter)` from
the source: seed with a random permutation, set the best cipher to it,
iterate, and return the best reverse cipher. -/
noncomputable def metropolisHastings (alphabet encMsg : List Char) (M : TM)
    (picks : List Nat) (rs : List StepRand) : Option (List Char) :=
  (mhRun alphabet encMsg M ⟨permuteAlph alphabet picks, permuteAlph alphabet picks⟩
      rs).map MHState.best

/-- The score `measure` computes when its `encipher` call succeeds
(total form used to state the search-loop invariants). -/
noncomputable def measureVal (cipher encMsg : List Char) (M : TM)
    (alphabet : List Char) : ℝ :=
  logProbFold M (encipherLoop (cipherMapFun alphabet cipher) encMsg)

/-- Python `str.rstrip()` applied to a line of the corpus: trailing
whitespace removed. -/
def rstrip (l : List Char) : List Char :=
  (l.reverse.dropWhile Char.isWhitespace).reverse

/-- All adjacent character pairs scanned by the counting loop of
`transitionMatrix` over the (rstripped) corpus lines; pairs never span
two lines. -/
def linePairs (lines : List (List Char)) : List (Char × Char) :=
  (lines.map (fun l => (rstrip l).zip (rstrip l).tail)).flatten

/-- The count accumulated in `M[c1][c2]` by the counting loop of
`transitionMatrix`: occurrences of the adjacent pair, provided both
characters are alphabet members (otherwise the `KeyError` is caught and
the count stays 0). -/
def pairCount (alphabet : List Char) (lines : List (List Char)) (c1 c2 : Char) : Nat :=
  if c1 ∈ alphabet ∧ c2 ∈ alphabet then (linePairs lines).count (c1, c2) else 0

/-- The grand total `total` of `transitionMatrix`: the sum of all counts
over the matrix (dict keys are deduplicated as in a Python dict). -/
def totalCount (alphabet : List Char) (lines : List (List Char)) : Nat :=
  (alphabet.dedup.map
    (fun c1 => (alphabet.dedup.map (fun c2 => pairCount alphabet lines c1 c2)).sum)).sum

/-- The matrix built by `transitionMatrix(readFile, writeFile, alphabet)`
from the corpus `lines`, as the in-memory model it serializes: counts are
divided by the grand total and zero entries are then replaced by
`e^-20`.  When the alphabet is nonempty and no pair was counted the
division `0.0 / 0.0` raises `ZeroDivisionError`, modelled by `none`.
(The source tests `value2 == 0.0` after the division; since the total is
nonzero on the `some` branch, an entry is `0.0` exactly when its count
is `0`.) -/
noncomputable def transitionMatrix (alphabet : List Char) (lines : List (List Char)) :
    Option TM :=
  if alphabet ≠ [] ∧ totalCount alphabet lines = 0 then none
  else some (fun c1 c2 =>
    if c1 ∈ alphabet ∧ c2 ∈ alphabet then
      some (if pairCount alphabet lines c1 c2 = 0 then Real.exp (-20)
            else (pairCount alphabet lines c1 c2 : ℝ) / (totalCount alphabet lines : ℝ))
    else none)

/-- Modelled from the spec (§4.1): `apply(text, sourceOrder,
targetOrder)` — each symbol that appears in `sourceOrder` is replaced by
the symbol at the corresponding position of `targetOrder`, all other
symbols pass through unchanged. -/
def applySpec (text sourceOrder targetOrder : List Char) : List Char :=
  text.map (fun c =>
    match sourceOrder.indexOf? c with
    | some k => targetOrder.getD k c
    | none => c)

/-- Modelled from the spec (§4.4): the scorer as a sum over every
adjacent symbol pair of a decoded text, a pair absent from the model
contributing `0`. -/
noncomputable def specLogSum (M : TM) (text : List Char) : ℝ :=
  ((text.zip text.tail).map (fun p =>
    match M p.1 p.2 with
    | some v => Real.log v
    | none => 0)).sum

/-! ### General lemmas about the codec -/

theorem encipherLoop_eq_map (f : Char → Option Char) (l : List Char) :
    encipherLoop f l = l.map (fun c => (f c).getD c) := by
  induction l with
  | nil => rfl
  | cons c rest ih =>
      simp only [encipherLoop, ih, List.map_cons, List.cons.injEq, and_true]
      cases f c <;> rfl

theorem foldl_updEntry_not_mem (c : Char) :
    ∀ (L : List (Char × Char)) (m0 : Char → Option Char),
      (∀ p ∈ L, p.1 ≠ c) → L.foldl updEntry m0 c = m0 c := by
  intro L
  induction L with
  | nil => intro m0 _; rfl
  | cons p t ih =>
      intro m0 h
      have hp : p.1 ≠ c := h p (List.mem_cons_self p t)
      rw [List.foldl_cons, ih _ (fun q hq => h q (List.mem_cons_of_mem p hq))]
      simp only [updEntry]
      rw [if_neg (fun hc => hp hc.symm)]

theorem foldl_updEntry_mem (c v : Char) :
    ∀ (L : List (Char × Char)) (m0 : Char → Option Char),
      (L.map Prod.fst).Nodup → (c, v) ∈ L → L.foldl updEntry m0 c = some v := by
  intro L
  induction L with
  | nil => intro m0 _ hmem; cases hmem
  | cons p t ih =>
      intro m0 hnod hmem
      rw [List.map_cons, List.nodup_cons] at hnod
      rcases List.mem_cons.mp hmem with heq | hmem2
      · rw [List.foldl_cons, foldl_updEntry_not_mem]
        · rw [← heq]; simp [updEntry]
        · intro q hq hqc
          rw [← heq] at hnod
          exact hnod.1 (List.mem_map.mpr ⟨q, hq, hqc⟩)
      · rw [List.foldl_cons]
        exact ih _ hnod.2 hmem2

theorem cipherMapFun_eq_none (cipher alphabet : List Char) (c : Char)
    (h : c ∉ alphabet) : cipherMapFun cipher alphabet c = none := by
  unfold cipherMapFun
  rw [foldl_updEntry_not_mem]
  intro p hp hpc
  exact h (hpc ▸ (List.of_mem_zip hp).1)

theorem cipherMapFun_eq_some (cipher alphabet : List Char) (c : Char)
    (hnod : alphabet.Nodup) (hlen : alphabet.length ≤ cipher.length)
    (hc : c ∈ alphabet) :
    cipherMapFun cipher alphabet c = some (cipher.getD (alphabet.indexOf c) ' ') := by
  have hk : alphabet.indexOf c < alphabet.length := List.indexOf_lt_length.mpr hc
  have hkc : alphabet.indexOf c < cipher.length := lt_of_lt_of_le hk hlen
  have hkz : alphabet.indexOf c < (alphabet.zip cipher).length := by
    rw [List.length_zip]
    exact lt_min hk hkc
  have hmem : (c, cipher.getD (alphabet.indexOf c) ' ') ∈ alphabet.zip cipher := by
    apply List.mem_iff_get.mpr
    refine ⟨⟨alphabet.indexOf c, hkz⟩, ?_⟩
    rw [List.getD_eq_getElem cipher ' ' hkc]
    have hca := List.getElem_indexOf hk
    simp [List.getElem_zip, hca]
  unfold cipherMapFun
  exact foldl_updEntry_mem c _ _ _
    (by rw [List.map_fst_zip alphabet cipher hlen]; exact hnod) hmem

theorem encipher_eq_some (message cipher alphabet : List Char)
    (h : alphabet.length ≤ cipher.length) :
    encipher message cipher alphabet =
      some (encipherLoop (cipherMapFun cipher alphabet) message) := by
  unfold encipher
  rw [if_neg (by omega)]

theorem measure_eq_some (cipher encMsg : List Char) (M : TM) (alphabet : List Char)
    (h : cipher.length ≤ alphabet.length) :
    measure cipher encMsg M alphabet = some (measureVal cipher encMsg M alphabet) := by
  unfold measure measureVal
  rw [encipher_eq_some encMsg alphabet cipher h]
  rfl

theorem logProbFold_eq_specLogSum (M : TM) (l : List Char) :
    logProbFold M l = specLogSum M l := by
  induction l with
  | nil => simp [logProbFold, specLogSum]
  | cons a t ih =>
      cases t with
      | nil => simp [logProbFold, specLogSum]
      | cons b rest =>
          rw [logProbFold, ih]
          simp only [specLogSum, List.tail_cons, List.zip_cons_cons, List.map_cons,
            List.sum_cons]

theorem acceptProb_eq_some (X Y encMsg : List Char) (M : TM) (alphabet : List Char)
    (hX : X.length ≤ alphabet.length) (hY : Y.length ≤ alphabet.length) :
    acceptProb X Y encMsg M alphabet =
      some (if 0 < measureVal Y encMsg M alphabet - measureVal X encMsg M alphabet
            then (1 : ℝ)
            else Real.exp (measureVal Y encMsg M alphabet -
              measureVal X encMsg M alphabet)) := by
  unfold acceptProb measureVal
  rw [encipher_eq_some encMsg alphabet X hX, encipher_eq_some encMsg alphabet Y hY]

/-- **C2** (acceptance rule): for all reverse ciphers `X`, `Y`, message,
and transition model, `acceptProb` returns a probability `a` with
`0 < a ≤ 1`; with `diff` the log-likelihood of `Y`'s decoding minus that
of `X`'s decoding, `a = 1` exactly when `diff ≥ 0` (at `diff = 0` the
source computes `exp(0) = 1`) and `a = exp diff` when `diff < 0`.  The
length hypotheses say the ciphers are no longer than the alphabet, which
is what makes the `encipher` calls inside `acceptProb` succeed. -/
theorem acceptProb_acceptance_rule (X Y encMsg : List Char) (M : TM)
    (alphabet : List Char)
    (hX : X.length ≤ alphabet.length) (hY : Y.length ≤ alphabet.length) :
    ∃ a : ℝ, acceptProb X Y encMsg M alphabet = some a ∧
      0 < a ∧ a ≤ 1 ∧
      (0 ≤ measureVal Y encMsg M alphabet - measureVal X encMsg M alphabet → a = 1) ∧
      (measureVal Y encMsg M alphabet - measureVal X encMsg M alphabet < 0 →
        a = Real.exp (measureVal Y encMsg M alphabet -
          measureVal X encMsg M alphabet)) := by
  set d := measureVal Y encMsg M alphabet - measureVal X encMsg M alphabet with hd
  refine ⟨if 0 < d then (1 : ℝ) else Real.exp d,
    acceptProb_eq_some X Y encMsg M alphabet hX hY, ?_, ?_, ?_, ?_⟩
  · by_cases h0 : 0 < d
    · rw [if_pos h0]; norm_num
    · rw [if_neg h0]; exact Real.exp_pos d
  · by_cases h0 : 0 < d
    · rw [if_pos h0]
    · rw [if_neg h0]
      exact Real.exp_le_one_iff.mpr (le_of_not_lt h0)
  · intro hge
    by_cases h0 : 0 < d
    · rw [if_pos h0]
    · have h00 : d = 0 := le_antisymm (le_of_not_lt h0) hge
      rw [if_neg h0, h00, Real.exp_zero]
  · intro hlt
    rw [if_neg (not_lt.mpr (le_of_lt hlt))]

/-- Witness for C2 at a concrete input. -/
theorem acceptProb_acceptance_rule_witness :
    ∃ a : ℝ, acceptProb [Char.ofNat 97] [Char.ofNat 97] [] (fun _ _ => none)
        [Char.ofNat 97] = some a ∧
      0 < a ∧ a ≤ 1 ∧
      (0 ≤ measureVal [Char.ofNat 97] [] (fun _ _ => none) [Char.ofNat 97] -
          measureVal [Char.ofNat 97] [] (fun _ _ => none) [Char.ofNat 97] → a = 1) ∧
      (measureVal [Char.ofNat 97] [] (fun _ _ => none) [Char.ofNat 97] -
          measureVal [Char.ofNat 97] [] (fun _ _ => none) [Char.ofNat 97] < 0 →
        a = Real.exp (measureVal [Char.ofNat 97] [] (fun _ _ => none) [Char.ofNat 97] -
          measureVal [Char.ofNat 97] [] (fun _ _ => none) [Char.ofNat 97])) :=
  acceptProb_acceptance_rule [Char.ofNat 97] [Char.ofNat 97] [] (fun _ _ => none)
    [Char.ofNat 97] (by decide) (by decide)

/-- **C6** (scorer/acceptance equivalence): `acceptProb` returns exactly
the §4.5 acceptance rule applied to the two scorer values: `1` when
`measure Y − measure X ≥ 0` and `exp` of the difference otherwise. -/
theorem acceptProb_eq_measure_rule (X Y encMsg : List Char) (M : TM)
    (alphabet : List Char)
    (hX : X.length ≤ alphabet.length) (hY : Y.length ≤ alphabet.length) :
    ∃ sX sY : ℝ, measure X encMsg M alphabet = some sX ∧
      measure Y encMsg M alphabet = some sY ∧
      acceptProb X Y encMsg M alphabet =
        some (if 0 ≤ sY - sX then (1 : ℝ) else Real.exp (sY - sX)) := by
  refine ⟨measureVal X encMsg M alphabet, measureVal Y encMsg M alphabet,
    measure_eq_some X encMsg M alphabet hX, measure_eq_some Y encMsg M alphabet hY, ?_⟩
  rw [acceptProb_eq_some X Y encMsg M alphabet hX hY]
  congr 1
  set d := measureVal Y encMsg M alphabet - measureVal X encMsg M alphabet with hd
  by_cases h0 : 0 < d
  · rw [if_pos h0, if_pos (le_of_lt h0)]
  · rw [if_neg h0]
    by_cases h1 : 0 ≤ d
    · have h00 : d = 0 := le_antisymm (le_of_not_lt h0) h1
      rw [if_pos h1, h00, Real.exp_zero]
    · rw [if_neg h1]

/-- Witness for C6 at a concrete input. -/
theorem acceptProb_eq_measure_rule_witness :
    ∃ sX sY : ℝ, measure [Char.ofNat 98] [] (fun _ _ => none) [Char.ofNat 98] = some sX ∧
      measure [Char.ofNat 98] [] (fun _ _ => none) [Char.ofNat 98] = some sY ∧
      acceptProb [Char.ofNat 98] [Char.ofNat 98] [] (fun _ _ => none) [Char.ofNat 98] =
        some (if 0 ≤ sY - sX then (1 : ℝ) else Real.exp (sY - sX)) :=
  acceptProb_eq_measure_rule [Char.ofNat 98] [Char.ofNat 98] [] (fun _ _ => none)
    [Char.ofNat 98] (by decide) (by decide)

theorem indexOf?_eq_some_of_mem (l : List Char) (c : Char) (h : c ∈ l) :
    l.indexOf? c = some (l.indexOf c) := by
  cases hio : l.indexOf? c with
  | none =>
      exact absurd (List.indexOf?_eq_none_iff.mp hio c h) (by simp)
  | some i =>
      rw [List.indexOf_eq_indexOf? c l, hio]

/-- **C10** (length preservation, implicit): for an alphabet no longer
than the cipher (so the dict-building loop does not raise), `encipher`
returns the position-wise image of the message, hence a string of
exactly the message's length, each output symbol a function of the input
symbol at the same position only. -/
theorem encipher_length_preservation (message cipher alphabet : List Char)
    (hlen : alphabet.length = cipher.length) :
    encipher message cipher alphabet =
      some (message.map (fun c => (cipherMapFun cipher alphabet c).getD c)) ∧
    (message.map (fun c => (cipherMapFun cipher alphabet c).getD c)).length =
      message.length := by
  constructor
  · rw [encipher_eq_some message cipher alphabet (le_of_eq hlen),
      encipherLoop_eq_map]
  · exact List.length_map message _

/-- Witness for C10 at a concrete input. -/
theorem encipher_length_preservation_witness :
    encipher [Char.ofNat 120, Char.ofNat 97] [Char.ofNat 98, Char.ofNat 99]
        [Char.ofNat 97, Char.ofNat 100] =
      some ([Char.ofNat 120, Char.ofNat 97].map
        (fun c => (cipherMapFun [Char.ofNat 98, Char.ofNat 99]
          [Char.ofNat 97, Char.ofNat 100] c).getD c)) ∧
    ([Char.ofNat 120, Char.ofNat 97].map
        (fun c => (cipherMapFun [Char.ofNat 98, Char.ofNat 99]
          [Char.ofNat 97, Char.ofNat 100] c).getD c)).length =
      [Char.ofNat 120, Char.ofNat 97].length :=
  encipher_length_preservation [Char.ofNat 120, Char.ofNat 97]
    [Char.ofNat 98, Char.ofNat 99] [Char.ofNat 97, Char.ofNat 100] (by decide)

theorem encipher_eq_applySpec (text sourceOrder targetOrder : List Char)
    (hnod : sourceOrder.Nodup) (hlen : sourceOrder.length ≤ targetOrder.length) :
    encipher text targetOrder sourceOrder =
      some (applySpec text sourceOrder targetOrder) := by
  rw [encipher_eq_some text targetOrder sourceOrder hlen, encipherLoop_eq_map]
  unfold applySpec
  congr 1
  apply List.map_congr_left
  intro c _
  by_cases hc : c ∈ sourceOrder
  · rw [cipherMapFun_eq_some targetOrder sourceOrder c hnod hlen hc,
      Option.getD_some, indexOf?_eq_some_of_mem sourceOrder c hc]
    have hk : sourceOrder.indexOf c < sourceOrder.length :=
      List.indexOf_lt_length.mpr hc
    have hkt : sourceOrder.indexOf c < targetOrder.length := lt_of_lt_of_le hk hlen
    rw [List.getD_eq_getElem targetOrder ' ' hkt]
    exact (List.getD_eq_getElem targetOrder c hkt).symm
  · rw [cipherMapFun_eq_none targetOrder sourceOrder c hc,
      (List.indexOf?_eq_none_iff).mpr (fun x hx => by
        simp only [beq_iff_eq]
        intro hxc
        exact hc (hxc ▸ hx))]
    rfl

/-- **C7** (pass-through of unknown symbols): for a duplicate-free
`sourceOrder` no longer than `targetOrder`, the codec call
`encipher(text, targetOrder, sourceOrder)` succeeds (no error for
unknown symbols) and equals the spec's `apply`: symbols found in
`sourceOrder` are replaced by the symbol at the corresponding position
of `targetOrder`, all others appear unchanged at the same relative
position. -/
theorem encipher_passthrough (text sourceOrder targetOrder : List Char)
    (hnod : sourceOrder.Nodup) (hlen : sourceOrder.length ≤ targetOrder.length) :
    encipher text targetOrder sourceOrder =
      some (applySpec text sourceOrder targetOrder) :=
  encipher_eq_applySpec text sourceOrder targetOrder hnod hlen

/-- Witness for C7 at a concrete input. -/
theorem encipher_passthrough_witness :
    encipher [Char.ofNat 97, Char.ofNat 63] [Char.ofNat 98] [Char.ofNat 97] =
      some (applySpec [Char.ofNat 97, Char.ofNat 63] [Char.ofNat 97] [Char.ofNat 98]) :=
  encipher_passthrough [Char.ofNat 97, Char.ofNat 63] [Char.ofNat 97] [Char.ofNat 98]
    (by decide) (by decide)

theorem cipherMap_roundtrip (alphabet P : List Char) (halph : alphabet.Nodup)
    (hPnod : P.Nodup) (hlen : alphabet.length = P.length) (c : Char)
    (hc : c ∈ alphabet) :
    (cipherMapFun alphabet P ((cipherMapFun P alphabet c).getD c)).getD
      ((cipherMapFun P alphabet c).getD c) = c := by
  have hk : alphabet.indexOf c < alphabet.length := List.indexOf_lt_length.mpr hc
  have hkP : alphabet.indexOf c < P.length := hlen ▸ hk
  rw [cipherMapFun_eq_some P alphabet c halph (le_of_eq hlen) hc, Option.getD_some,
    List.getD_eq_getElem P ' ' hkP]
  have hmemP : P.get ⟨alphabet.indexOf c, hkP⟩ ∈ P :=
    List.get_mem P (alphabet.indexOf c) hkP
  rw [List.get_eq_getElem] at hmemP
  rw [cipherMapFun_eq_some alphabet P _ hPnod (le_of_eq hlen.symm) hmemP,
    Option.getD_some, List.indexOf_getElem hPnod (alphabet.indexOf c) hkP,
    List.getD_eq_getElem alphabet ' ' hk]
  exact List.getElem_indexOf hk

/-- **C3** (codec round-trip): enciphering a message drawn from a
duplicate-free alphabet with a permutation `P` of that alphabet and then
applying the codec back from `P` to the alphabet returns the original
message. -/
theorem encipher_roundtrip (alphabet P message : List Char)
    (halph : alphabet.Nodup) (hperm : P.Perm alphabet)
    (hmsg : ∀ c ∈ message, c ∈ alphabet) :
    (encipher message P alphabet).bind (fun e => encipher e alphabet P) =
      some message := by
  have hlen : alphabet.length = P.length := hperm.length_eq.symm
  have hPnod : P.Nodup := hperm.nodup_iff.mpr halph
  rw [encipher_eq_some message P alphabet (le_of_eq hlen), Option.some_bind,
    encipher_eq_some _ alphabet P (le_of_eq hlen.symm),
    encipherLoop_eq_map, encipherLoop_eq_map, List.map_map]
  have hmap : message.map
      ((fun c => (cipherMapFun alphabet P c).getD c) ∘
        (fun c => (cipherMapFun P alphabet c).getD c)) = message.map id := by
    apply List.map_congr_left
    intro c hc
    exact cipherMap_roundtrip alphabet P halph hPnod hlen c (hmsg c hc)
  rw [hmap, List.map_id]

/-- Witness for C3 at a concrete input. -/
theorem encipher_roundtrip_witness :
    (encipher [Char.ofNat 97, Char.ofNat 98] [Char.ofNat 98, Char.ofNat 97]
        [Char.ofNat 97, Char.ofNat 98]).bind
      (fun e => encipher e [Char.ofNat 97, Char.ofNat 98]
        [Char.ofNat 98, Char.ofNat 97]) =
      some [Char.ofNat 97, Char.ofNat 98] :=
  encipher_roundtrip [Char.ofNat 97, Char.ofNat 98] [Char.ofNat 98, Char.ofNat 97]
    [Char.ofNat 97, Char.ofNat 98] (by decide) (by decide) (by decide)

/-! ### Permutation invariants of the generators -/

theorem consSet_perm (x : Char) :
    ∀ (t : List Char) (k : Nat), k < t.length →
      (t.getD k ' ' :: t.set k x).Perm (x :: t) := by
  intro t
  induction t with
  | nil => intro k hk; cases hk
  | cons y s ih =>
      intro k hk
      cases k with
      | zero =>
          simp only [List.getD_cons_zero, List.set_cons_zero]
          exact List.Perm.swap x y s
      | succ k =>
          simp only [List.getD_cons_succ, List.set_cons_succ]
          have h1 : (s.getD k ' ' :: y :: s.set k x).Perm
              (y :: s.getD k ' ' :: s.set k x) :=
            List.Perm.swap y (s.getD k ' ') (s.set k x)
          have h2 := (ih k (by simpa using hk)).cons y
          exact h1.trans (h2.trans (List.Perm.swap x y s))

theorem swapList_perm_lt :
    ∀ (l : List Char) (i j : Nat), i < j → j < l.length →
      (swapList l i j).Perm l := by
  intro l
  induction l with
  | nil => intro i j _ hj; cases hj
  | cons x t ih =>
      intro i j hij hj
      cases i with
      | zero =>
          cases j with
          | zero => omega
          | succ k =>
              have hk : k < t.length := by simpa using hj
              show (((x :: t).set 0 ((x :: t).getD (k + 1) ' ')).set (k + 1)
                  ((x :: t).getD 0 ' ')).Perm (x :: t)
              simp only [List.getD_cons_succ, List.getD_cons_zero,
                List.set_cons_zero, List.set_cons_succ]
              exact consSet_perm x t k hk
      | succ i2 =>
          cases j with
          | zero => omega
          | succ j2 =>
              have hj2 : j2 < t.length := by simpa using hj
              show (((x :: t).set (i2 + 1) ((x :: t).getD (j2 + 1) ' ')).set (j2 + 1)
                  ((x :: t).getD (i2 + 1) ' ')).Perm (x :: t)
              simp only [List.getD_cons_succ, List.set_cons_succ]
              exact (ih i2 j2 (by omega) hj2).cons x

theorem swapList_perm (l : List Char) (i j : Nat) (hi : i < l.length)
    (hj : j < l.length) (hij : i ≠ j) : (swapList l i j).Perm l := by
  rcases lt_or_gt_of_ne hij with h | h
  · exact swapList_perm_lt l i j h hj
  · have hcomm : swapList l i j = swapList l j i := by
      unfold swapList
      exact List.set_comm _ _ l hij
    rw [hcomm]
    exact swapList_perm_lt l j i h hi

theorem eraseIdx_cons_perm (pool : List Char) (i : Nat) (h : i < pool.length) :
    (pool.get ⟨i, h⟩ :: pool.eraseIdx i).Perm pool := by
  rw [List.eraseIdx_eq_take_drop_succ, List.get_eq_getElem]
  refine List.Perm.trans List.perm_middle.symm ?_
  rw [List.getElem_cons_drop, List.take_append_drop]

theorem sampleAll_perm :
    ∀ (picks : List Nat) (pool : List Char), picks.length = pool.length →
      (sampleAll pool picks).Perm pool := by
  intro picks
  induction picks with
  | nil =>
      intro pool h
      have hnil : pool = [] := List.length_eq_zero.mp h.symm
      simp [sampleAll, hnil]
  | cons k ks ih =>
      intro pool h
      have hpos : 0 < pool.length := by
        rw [← h]; simp
      have hmod : k % pool.length < pool.length := Nat.mod_lt k hpos
      simp only [sampleAll, dif_pos hpos]
      have hlen2 : ks.length = (pool.eraseIdx (k % pool.length)).length := by
        have h1 := List.length_eraseIdx_add_one hmod
        have h2 : ks.length + 1 = pool.length := by simpa using h
        omega
      exact ((ih _ hlen2).cons _).trans (eraseIdx_cons_perm pool _ hmod)

/-- **C5** (permutation invariant of the generators): (1) with the two
indices `random.sample` supplies (distinct, in range), `swapCipher`
succeeds, exchanges the contents of positions `i` and `j`, leaves every
other position unchanged, and returns a permutation of its input (same
multiset of symbols); (2) every outcome of `permuteAlph` (one index pick
per element, drawing without replacement) is a permutation of the input
alphabet. -/
theorem generators_permutation_invariant :
    (∀ (cipher : List Char) (i j : Nat), i < cipher.length → j < cipher.length →
      i ≠ j →
      ∃ l, swapCipher cipher i j = Except.ok l ∧ l.Perm cipher ∧
        l[i]? = cipher[j]? ∧ l[j]? = cipher[i]? ∧
        ∀ k : Nat, k ≠ i → k ≠ j → l[k]? = cipher[k]?) ∧
    (∀ (alphabet : List Char) (picks : List Nat),
      picks.length = alphabet.length →
      (permuteAlph alphabet picks).Perm alphabet) := by
  constructor
  · intro cipher i j hi hj hij
    refine ⟨swapList cipher i j, ?_, swapList_perm cipher i j hi hj hij, ?_, ?_, ?_⟩
    · unfold swapCipher
      rw [if_neg (by omega)]
    · show ((cipher.set i (cipher.getD j ' ')).set j (cipher.getD i ' '))[i]? =
        cipher[j]?
      rw [List.getElem?_set_ne (Ne.symm hij), List.getElem?_set_self hi,
        List.getD_eq_getElem cipher ' ' hj, List.getElem?_eq_getElem hj]
    · show ((cipher.set i (cipher.getD j ' ')).set j (cipher.getD i ' '))[j]? =
        cipher[i]?
      rw [List.getElem?_set_self (by rw [List.length_set]; exact hj),
        List.getD_eq_getElem cipher ' ' hi, List.getElem?_eq_getElem hi]
    · intro k hki hkj
      show ((cipher.set i (cipher.getD j ' ')).set j (cipher.getD i ' '))[k]? =
        cipher[k]?
      rw [List.getElem?_set_ne (Ne.symm hkj), List.getElem?_set_ne (Ne.symm hki)]
  · intro alphabet picks h
    exact sampleAll_perm picks alphabet h

/-- Witness for C5 at concrete inputs. -/
theorem generators_permutation_invariant_witness :
    (∃ l, swapCipher [Char.ofNat 97, Char.ofNat 98] 0 1 = Except.ok l ∧
      l.Perm [Char.ofNat 97, Char.ofNat 98] ∧
      l[0]? = [Char.ofNat 97, Char.ofNat 98][1]? ∧
      l[1]? = [Char.ofNat 97, Char.ofNat 98][0]? ∧
      ∀ k : Nat, k ≠ 0 → k ≠ 1 → l[k]? = [Char.ofNat 97, Char.ofNat 98][k]?) ∧
    (permuteAlph [Char.ofNat 97, Char.ofNat 98] [1, 0]).Perm
      [Char.ofNat 97, Char.ofNat 98] :=
  ⟨generators_permutation_invariant.1 [Char.ofNat 97, Char.ofNat 98] 0 1
      (by decide) (by decide) (by decide),
    generators_permutation_invariant.2 [Char.ofNat 97, Char.ofNat 98] [1, 0]
      (by decide)⟩

/-- **C8** (degenerate alphabet): for a cipher of length `< 2` the
proposal generator fails with the `InvalidAlphabetSize` condition
(`random.sample(range(n), 2)` raises) instead of succeeding or
looping. -/
theorem swapCipher_degenerate (cipher : List Char) (h : cipher.length < 2)
    (i j : Nat) :
    swapCipher cipher i j = Except.error CipherError.invalidAlphabetSize := by
  unfold swapCipher
  rw [if_pos h]

/-- Witness for C8 at a concrete input. -/
theorem swapCipher_degenerate_witness :
    [Char.ofNat 97].length < 2 ∧
      swapCipher [Char.ofNat 97] 0 1 =
        Except.error CipherError.invalidAlphabetSize :=
  ⟨by decide, swapCipher_degenerate [Char.ofNat 97] (by decide) 0 1⟩

/-! ### Transition-model construction -/

/-- **C9** (transition-model construction postcondition): whenever
`transitionMatrix` produces a model (it raises `ZeroDivisionError` when
the alphabet is nonempty and no pair was counted), the model maps every
ordered pair of alphabet symbols to a strictly positive probability: a
pair of zero observed count gets the floor constant `e^-20`, and every
other pair gets its count normalized by the total count of all counted
pairs. -/
theorem transitionMatrix_postcondition (alphabet : List Char)
    (lines : List (List Char)) (M : TM)
    (hM : transitionMatrix alphabet lines = some M)
    (c1 c2 : Char) (h1 : c1 ∈ alphabet) (h2 : c2 ∈ alphabet) :
    ∃ p : ℝ, M c1 c2 = some p ∧ 0 < p ∧
      (pairCount alphabet lines c1 c2 = 0 → p = Real.exp (-20)) ∧
      (pairCount alphabet lines c1 c2 ≠ 0 →
        p = (pairCount alphabet lines c1 c2 : ℝ) /
          (totalCount alphabet lines : ℝ)) := by
  unfold transitionMatrix at hM
  by_cases hguard : alphabet ≠ [] ∧ totalCount alphabet lines = 0
  · rw [if_pos hguard] at hM
    cases hM
  · rw [if_neg hguard] at hM
    have htot : totalCount alphabet lines ≠ 0 := by
      have hne : alphabet ≠ [] := by
        intro hnil
        rw [hnil] at h1
        cases h1
      intro h0
      exact hguard ⟨hne, h0⟩
    injection hM with hM2
    refine ⟨(if pairCount alphabet lines c1 c2 = 0 then Real.exp (-20)
      else (pairCount alphabet lines c1 c2 : ℝ) / (totalCount alphabet lines : ℝ)),
      ?_, ?_, ?_, ?_⟩
    · rw [← hM2]
      simp [h1, h2]
    · by_cases hc : pairCount alphabet lines c1 c2 = 0
      · rw [if_pos hc]
        exact Real.exp_pos (-20)
      · rw [if_neg hc]
        apply div_pos
        · exact_mod_cast Nat.pos_of_ne_zero hc
        · exact_mod_cast Nat.pos_of_ne_zero htot
    · intro hc
      rw [if_pos hc]
    · intro hc
      rw [if_neg hc]

/-- Witness for C9 at a concrete corpus and alphabet. -/
theorem transitionMatrix_postcondition_witness :
    ∃ M : TM, transitionMatrix [Char.ofNat 97, Char.ofNat 98]
        [[Char.ofNat 97, Char.ofNat 98]] = some M ∧
      ∃ p : ℝ, M (Char.ofNat 97) (Char.ofNat 98) = some p ∧ 0 < p ∧
        (pairCount [Char.ofNat 97, Char.ofNat 98] [[Char.ofNat 97, Char.ofNat 98]]
            (Char.ofNat 97) (Char.ofNat 98) = 0 → p = Real.exp (-20)) ∧
        (pairCount [Char.ofNat 97, Char.ofNat 98] [[Char.ofNat 97, Char.ofNat 98]]
            (Char.ofNat 97) (Char.ofNat 98) ≠ 0 →
          p = (pairCount [Char.ofNat 97, Char.ofNat 98]
              [[Char.ofNat 97, Char.ofNat 98]] (Char.ofNat 97) (Char.ofNat 98) : ℝ) /
            (totalCount [Char.ofNat 97, Char.ofNat 98]
              [[Char.ofNat 97, Char.ofNat 98]] : ℝ)) := by
  have hm : transitionMatrix [Char.ofNat 97, Char.ofNat 98]
      [[Char.ofNat 97, Char.ofNat 98]] =
      some (fun c1 c2 =>
        if c1 ∈ [Char.ofNat 97, Char.ofNat 98] ∧ c2 ∈ [Char.ofNat 97, Char.ofNat 98] then
          some (if pairCount [Char.ofNat 97, Char.ofNat 98]
                [[Char.ofNat 97, Char.ofNat 98]] c1 c2 = 0 then Real.exp (-20)
              else (pairCount [Char.ofNat 97, Char.ofNat 98]
                  [[Char.ofNat 97, Char.ofNat 98]] c1 c2 : ℝ) /
                (totalCount [Char.ofNat 97, Char.ofNat 98]
                  [[Char.ofNat 97, Char.ofNat 98]] : ℝ))
        else none) := by
    unfold transitionMatrix
    rw [if_neg (by decide)]
  exact ⟨_, hm, transitionMatrix_postcondition [Char.ofNat 97, Char.ofNat 98]
    [[Char.ofNat 97, Char.ofNat 98]] _ hm (Char.ofNat 97) (Char.ofNat 98)
    (by decide) (by decide)⟩

/-! ### The scorer's decode direction (claim C4) -/

/-- A concrete transition model separating the two decode directions:
only the pairs `(c, a)` (probability `1`, log `0`) and `(b, c)`
(probability `e`, log `1`) are present. -/
noncomputable def Mex : TM := fun c1 c2 =>
  if c1 = 'c' ∧ c2 = 'a' then some 1
  else if c1 = 'b' ∧ c2 = 'c' then some (Real.exp 1)
  else none

/-- **C4, counterexample**: the scorer does NOT decode with
`(Alphabet → permutation)` (replacing alphabet symbols by permutation
symbols, spec §4.1's deciphering direction).  With alphabet `[a,b,c]`,
permutation `[b,c,a]` and message `"ab"`, `measure` decodes to `"ca"`
(score `ln 1 = 0`) while the claimed formula decodes to `"bc"` (score
`ln e = 1`). -/
theorem measure_decode_direction_counterexample :
    measure ['b', 'c', 'a'] ['a', 'b'] Mex ['a', 'b', 'c'] ≠
      some (specLogSum Mex (applySpec ['a', 'b'] ['a', 'b', 'c'] ['b', 'c', 'a'])) := by
  have e1 : encipher ['a', 'b'] ['a', 'b', 'c'] ['b', 'c', 'a'] =
      some ['c', 'a'] := by decide
  have e2 : applySpec ['a', 'b'] ['a', 'b', 'c'] ['b', 'c', 'a'] =
      ['b', 'c'] := by decide
  have m1 : Mex 'c' 'a' = some 1 := by
    unfold Mex
    rw [if_pos ⟨rfl, rfl⟩]
  have m2 : Mex 'b' 'c' = some (Real.exp 1) := by
    unfold Mex
    rw [if_neg (by decide), if_pos ⟨rfl, rfl⟩]
  have v1 : logProbFold Mex ['c', 'a'] = 0 := by
    simp [logProbFold, m1, Real.log_one]
  have v2 : specLogSum Mex ['b', 'c'] = 1 := by
    simp [specLogSum, m2, Real.log_exp]
  unfold measure
  rw [e1, e2]
  simp [v1, v2]

/-- **C4, amended**: for every permutation of a duplicate-free alphabet,
message and model, `measure(permutation, message, M, alphabet)` equals
the sum of `ln(M[s_i][s_(i+1)])` over all adjacent symbol pairs of the
text obtained by decoding the message with the Codec using
`(permutation → Alphabet)` as the substitution (spec §3's decode
direction), pairs absent from the model contributing exactly `0`; being
a function of its arguments, the result is deterministic. -/
theorem measure_spec_amended (cipher encMsg : List Char) (M : TM)
    (alphabet : List Char) (halph : alphabet.Nodup)
    (hperm : cipher.Perm alphabet) :
    measure cipher encMsg M alphabet =
      some (specLogSum M (applySpec encMsg cipher alphabet)) := by
  have hnod : cipher.Nodup := hperm.nodup_iff.mpr halph
  have hlen : cipher.length ≤ alphabet.length := le_of_eq hperm.length_eq
  unfold measure
  rw [encipher_eq_applySpec encMsg cipher alphabet hnod hlen]
  show some (logProbFold M (applySpec encMsg cipher alphabet)) = _
  rw [logProbFold_eq_specLogSum]

/-- Witness for the amended C4 at a concrete input. -/
theorem measure_spec_amended_witness :
    measure ['b', 'a'] ['a'] (fun _ _ => none) ['a', 'b'] =
      some (specLogSum (fun _ _ => none) (applySpec ['a'] ['b', 'a'] ['a', 'b'])) :=
  measure_spec_amended ['b', 'a'] ['a'] (fun _ _ => none) ['a', 'b']
    (by decide) (by decide)

/-! ### Search-loop invariants (claim C1) -/

/-- The contract of `random.sample(range(n), 2)`: the two indices it
returns are in range and distinct. -/
def ValidRand (n : Nat) (r : StepRand) : Prop :=
  r.i < n ∧ r.j < n ∧ r.i ≠ r.j

/-- The search-state invariant maintained by the loop: both ciphers have
the alphabet's length and the best cipher scores at least as high as the
current one. -/
def Inv (alphabet encMsg : List Char) (M : TM) (st : MHState) : Prop :=
  st.curr.length = alphabet.length ∧ st.best.length = alphabet.length ∧
  measureVal st.curr encMsg M alphabet ≤ measureVal st.best encMsg M alphabet

theorem mhStep_invariant (alphabet encMsg : List Char) (M : TM) (st : MHState)
    (r : StepRand) (hinv : Inv alphabet encMsg M st)
    (hr : ValidRand alphabet.length r) :
    ∃ st2, mhStep alphabet encMsg M st r = some st2 ∧
      Inv alphabet encMsg M st2 ∧
      measureVal st.best encMsg M alphabet ≤
        measureVal st2.best encMsg M alphabet := by
  obtain ⟨hc, hb, hcb⟩ := hinv
  obtain ⟨hri, hrj, hrij⟩ := hr
  have hsw : swapCipher st.curr r.i r.j =
      Except.ok (swapList st.curr r.i r.j) := by
    unfold swapCipher
    rw [if_neg (by omega)]
  have hlen2 : (swapList st.curr r.i r.j).length = alphabet.length := by
    simp [swapList, List.length_set, hc]
  obtain ⟨a, hap⟩ : ∃ a, acceptProb st.curr (swapList st.curr r.i r.j) encMsg M
      alphabet = some a :=
    ⟨_, acceptProb_eq_some st.curr (swapList st.curr r.i r.j) encMsg M alphabet
      (le_of_eq hc) (le_of_eq hlen2)⟩
  simp only [mhStep, hsw, hap,
    measure_eq_some (swapList st.curr r.i r.j) encMsg M alphabet (le_of_eq hlen2),
    measure_eq_some st.best encMsg M alphabet (le_of_eq hb)]
  split_ifs with hu hbest
  · exact ⟨⟨swapList st.curr r.i r.j, swapList st.curr r.i r.j⟩, rfl,
      ⟨hlen2, hlen2, le_refl _⟩, le_of_lt hbest⟩
  · exact ⟨⟨swapList st.curr r.i r.j, st.best⟩, rfl,
      ⟨hlen2, hb, le_of_not_lt hbest⟩, le_refl _⟩
  · exact ⟨st, rfl, ⟨hc, hb, hcb⟩, le_refl _⟩

theorem mhRun_invariant (alphabet encMsg : List Char) (M : TM) :
    ∀ (rs : List StepRand) (st : MHState), Inv alphabet encMsg M st →
      (∀ r ∈ rs, ValidRand alphabet.length r) →
      ∃ st2, mhRun alphabet encMsg M st rs = some st2 ∧
        Inv alphabet encMsg M st2 ∧
        measureVal st.best encMsg M alphabet ≤
          measureVal st2.best encMsg M alphabet := by
  intro rs
  induction rs with
  | nil =>
      intro st hinv _
      exact ⟨st, rfl, hinv, le_refl _⟩
  | cons r rest ih =>
      intro st hinv hv
      obtain ⟨st2, hstep, hinv2, hmono⟩ :=
        mhStep_invariant alphabet encMsg M st r hinv (hv r (List.mem_cons_self r rest))
      obtain ⟨st3, hrun, hinv3, hmono2⟩ :=
        ih st2 hinv2 (fun q hq => hv q (List.mem_cons_of_mem r hq))
      refine ⟨st3, ?_, hinv3, le_trans hmono hmono2⟩
      simp only [mhRun, hstep, hrun]

theorem mhRun_append (alphabet encMsg : List Char) (M : TM) :
    ∀ (l1 l2 : List StepRand) (st : MHState),
      mhRun alphabet encMsg M st (l1 ++ l2) =
        (mhRun alphabet encMsg M st l1).bind
          (fun st2 => mhRun alphabet encMsg M st2 l2) := by
  intro l1
  induction l1 with
  | nil => intro l2 st; rfl
  | cons r t ih =>
      intro l2 st
      show mhRun alphabet encMsg M st (r :: (t ++ l2)) = _
      simp only [mhRun]
      cases mhStep alphabet encMsg M st r with
      | none => rfl
      | some st2 => exact ih l2 st2

/-- **C1** (search-state invariant and best monotonicity): over every
execution of the search loop (initial cipher an arbitrary outcome of
`permuteAlph`, per-iteration randomness valid per the `random.sample`
contract), after every iteration `k` the loop state exists (no call
raises), the best cipher scores at least as high as the current cipher,
and the best cipher's score after iteration `k + 1` is at least its
score after iteration `k`. -/
theorem metropolisHastings_best_monotone (alphabet encMsg : List Char) (M : TM)
    (picks : List Nat) (rs : List StepRand)
    (hpicks : picks.length = alphabet.length)
    (hrs : ∀ r ∈ rs, ValidRand alphabet.length r) (k : Nat) :
    ∃ st st2,
      mhRun alphabet encMsg M
        ⟨permuteAlph alphabet picks, permuteAlph alphabet picks⟩
        (rs.take k) = some st ∧
      mhRun alphabet encMsg M
        ⟨permuteAlph alphabet picks, permuteAlph alphabet picks⟩
        (rs.take (k + 1)) = some st2 ∧
      measureVal st.curr encMsg M alphabet ≤
        measureVal st.best encMsg M alphabet ∧
      measureVal st.best encMsg M alphabet ≤
        measureVal st2.best encMsg M alphabet := by
  have hinit : Inv alphabet encMsg M
      ⟨permuteAlph alphabet picks, permuteAlph alphabet picks⟩ := by
    have hl : (permuteAlph alphabet picks).length = alphabet.length :=
      (sampleAll_perm picks alphabet hpicks).length_eq
    exact ⟨hl, hl, le_refl _⟩
  obtain ⟨st, hst, hinv, _⟩ := mhRun_invariant alphabet encMsg M (rs.take k) _
    hinit (fun r hr => hrs r (List.take_subset k rs hr))
  cases hk : rs[k]? with
  | none =>
      refine ⟨st, st, hst, ?_, hinv.2.2, le_refl _⟩
      rw [List.take_succ, mhRun_append, hst, hk]
      rfl
  | some r =>
      have hvr : ValidRand alphabet.length r := hrs r (List.getElem?_mem hk)
      obtain ⟨st2, hstep, hinv2, hmono⟩ :=
        mhStep_invariant alphabet encMsg M st r hinv hvr
      refine ⟨st, st2, hst, ?_, hinv.2.2, hmono⟩
      rw [List.take_succ, mhRun_append, hst, hk]
      show mhRun alphabet encMsg M st [r] = some st2
      simp only [mhRun, hstep]

/-- Witness for C1 at a concrete input (one iteration, uniform draw `2`
so the proposal is rejected). -/
theorem metropolisHastings_best_monotone_witness :
    ∃ st st2,
      mhRun [Char.ofNat 97, Char.ofNat 98] [Char.ofNat 97] (fun _ _ => none)
        ⟨permuteAlph [Char.ofNat 97, Char.ofNat 98] [0, 0],
          permuteAlph [Char.ofNat 97, Char.ofNat 98] [0, 0]⟩
        (List.take 0 [StepRand.mk 0 1 2]) = some st ∧
      mhRun [Char.ofNat 97, Char.ofNat 98] [Char.ofNat 97] (fun _ _ => none)
        ⟨permuteAlph [Char.ofNat 97, Char.ofNat 98] [0, 0],
          permuteAlph [Char.ofNat 97, Char.ofNat 98] [0, 0]⟩
        (List.take (0 + 1) [StepRand.mk 0 1 2]) = some st2 ∧
      measureVal st.curr [Char.ofNat 97] (fun _ _ => none)
          [Char.ofNat 97, Char.ofNat 98] ≤
        measureVal st.best [Char.ofNat 97] (fun _ _ => none)
          [Char.ofNat 97, Char.ofNat 98] ∧
      measureVal st.best [Char.ofNat 97] (fun _ _ => none)
          [Char.ofNat 97, Char.ofNat 98] ≤
        measureVal st2.best [Char.ofNat 97] (fun _ _ => none)
          [Char.ofNat 97, Char.ofNat 98] :=
  metropolisHastings_best_monotone [Char.ofNat 97, Char.ofNat 98] [Char.ofNat 97]
    (fun _ _ => none) [0, 0] [StepRand.mk 0 1 2] (by decide)
    (fun r hr => by
      rw [List.mem_singleton] at hr
      subst hr
      exact ⟨by decide, by decide, by decide⟩) 0

end MH
